import Mathlib

set_option maxHeartbeats 1000000

/- Shallow embedding of sljtest.c (SLJ Test 0.8c): the histogram table
construction (histo_setup), the argument validity checks of main, the
per-delta analysis loop (bin classification, counters), the outlier ring
buffer, the report midpoint bookkeeping and knee recommendations, the bar
rendering logarithm arguments, and the outlier export loop. C uint64_t
arithmetic is modelled as Nat reduced mod 2 ^ 64. -/

/-- Reduce a natural number to the C uint64_t range. -/
def u64 (n : Nat) : Nat := n % 2 ^ 64

/-- C uint64_t subtraction a - b with wraparound. -/
def u64sub (a b : Nat) : Nat := (a + (2 ^ 64 - b % 2 ^ 64)) % 2 ^ 64

/-- Upper bounds written by the first histo_setup loop (sljtest.c lines
408-411): for each bin index i below the midpoint bins/2, the upper bound
is min + (knee-min)*(i+1)/(bins/2) with truncating uint64 division. Each
list element is the pair (bin index, upper bound written there). -/
def lowerWrites (bins minv knee : Nat) : List (Nat × Nat) :=
  (List.range (bins / 2)).map fun i =>
    (i, u64 (minv + u64 (u64sub knee minv * (i + 1)) / (bins / 2)))

/-- Upper bounds written by the second histo_setup loop (lines 414-423).
The recursion is on remaining = bins - bp, which is positive exactly when
the loop condition bp < histo + bins holds and drops by 2 per iteration.
Each iteration writes mult*2 at index bp, advances bp, multiplies mult by
10, writes mult at the advanced index, and then advances bp again; both
writes are unconditional, so an iteration entered with remaining = 1,
that is with bp = bins - 1, also writes at index bins. -/
def upperWritesAux (mult bp : Nat) : Nat → List (Nat × Nat)
  | 0 => []
  | 1 => [(bp, u64 (mult * 2)), (bp + 1, u64 (mult * 10))]
  | r + 2 =>
    (bp, u64 (mult * 2)) :: (bp + 1, u64 (mult * 10)) ::
      upperWritesAux (u64 (mult * 10)) (bp + 2) r

/-- All upper-bound writes performed by histo_setup in order: the linear
lower half, the exponential upper half starting at index bins/2 with
mult = knee, and the final sentinel write histo[bins-1] = UINT64_MAX
(line 424). -/
def histoWrites (bins minv knee : Nat) : List (Nat × Nat) :=
  lowerWrites bins minv knee ++
    upperWritesAux knee (bins / 2) (bins - bins / 2) ++
      [(bins - 1, 2 ^ 64 - 1)]

/-- The upper-bound table histo_setup leaves in histo[0..bins-1]: the write
sequence applied in order to a bins-entry table. A write whose index falls
outside the table leaves the modelled table unchanged (in the C program it
corrupts adjacent heap memory instead). -/
def histoTable (bins minv knee : Nat) : List Nat :=
  (histoWrites bins minv knee).foldl (fun acc w => acc.set w.1 w.2)
    (List.replicate bins 0)

/-- The fixed report header text (line 441). -/
def pre_graph_hdr : String := "Time    Ticks    Count        Percent    Cumulative  "

/-- The full-width bar of stars (line 442); its length bounds the bar width. -/
def graph_str : String := "*******************************************************************"

/-- The argument validity checks of main (lines 449-470): each failed check
increments errflag, and main prints usage and exits, before any sampling,
iff the result is nonzero. knee - min is computed in uint64 arithmetic.
There is no check that bins is even. -/
def args_validate (bins knee minv linewid : Nat) : Nat :=
  (if knee ≤ minv then 1 else 0) +
    (if u64sub knee minv < bins / 2 then 1 else 0) +
      (if linewid < pre_graph_hdr.length + 1 then 1 else 0) +
        (if linewid > pre_graph_hdr.length + graph_str.length then 1 else 0)

/-- C1: refuted as stated - histo_setup is not confined to indices
0..bins-1. For the valid configuration bins = 10, min = 10, knee = 50
(bins even and at least 2, knee greater than min, knee - min at least
bins/2) the write sequence touches index 10 = bins, one entry past the
allocated table, because the upper-half loop emits two entries per
iteration while bins/2 = 5 is odd. The full index sequence is the five
linear bins 0-4, then the pairs (5,6), (7,8), (9,10), then the sentinel
rewrite of index 9. -/
theorem histo_setup_writes_past_table :
    (histoWrites 10 10 50).map Prod.fst = [0, 1, 2, 3, 4, 5, 6, 7, 8, 9, 10, 9] := by
  decide

/-- C3: refuted as stated - the validity checks accept an odd bin count.
With bins = 5, knee = 50, min = 10 and the default line width 79 every
check passes (errflag stays 0) and main proceeds to histo_setup and
sampling, although the claim requires odd bin counts to be rejected. -/
theorem args_validate_accepts_odd_bins : args_validate 5 50 10 79 = 0 := by
  decide

/-- The bin-classification scan of the analysis loop (line 564): the index
of the first bin whose upper bound is at least d. The C loop has no end
test, so on a table whose bounds were all below d it would read past the
end; the model returns the list length in that case. -/
def findBin (d : Nat) : List Nat → Nat
  | [] => 0
  | ub :: rest => if d ≤ ub then 0 else findBin d rest + 1

/-- Increment the count of the bin at the given index, as the analysis
loop does at line 565. An index outside the table leaves it unchanged.
The count field is a C int; the increment is modelled on Nat, and the
count-sum theorems below restrict to runs of fewer than 2^31 samples, on
which every count stays within the int range where the C increment is
defined behavior. -/
def bumpAt : List Nat → Nat → List Nat
  | [], _ => []
  | c :: rest, 0 => (c + 1) :: rest
  | c :: rest, i + 1 => c :: bumpAt rest i

/-- The integer accumulator state of the analysis loop: per-bin counts,
delta_count, delta_sum (uint64), and the running min and max. -/
structure AccState where
  counts : List Nat
  delta_count : Nat
  delta_sum : Nat
  dmin : Nat
  dmax : Nat

/-- The accumulator before the loop (lines 494-497): all counts zero,
delta_count and delta_sum zero, min = UINT64_MAX, max = 0. -/
def accInit (nbins : Nat) : AccState :=
  ⟨List.replicate nbins 0, 0, 0, 2 ^ 64 - 1, 0⟩

/-- One iteration of the per-delta analysis loop (lines 556-572), integer
part: min/max update, bin count increment via the sentinel scan, and the
uint64 delta_count and delta_sum updates, both reduced mod 2^64 as C
uint64_t arithmetic wraps. The floating-point running mean and variance
and the outlier insertion are modelled separately. -/
def accStep (ubs : List Nat) (st : AccState) (d : Nat) : AccState :=
  { counts := bumpAt st.counts (findBin d ubs)
    delta_count := u64 (st.delta_count + 1)
    delta_sum := u64 (st.delta_sum + d)
    dmin := if d < st.dmin then d else st.dmin
    dmax := if st.dmax < d then d else st.dmax }

/-- Feed a whole sequence of deltas through the analysis loop over the bin
table ubs, starting from the fresh accumulator. -/
def accRun (ubs : List Nat) (deltas : List Nat) : AccState :=
  deltas.foldl (accStep ubs) (accInit ubs.length)

theorem bumpAt_length (l : List Nat) (i : Nat) : (bumpAt l i).length = l.length := by
  induction l generalizing i with
  | nil => rfl
  | cons c rest ih =>
    cases i with
    | zero => rfl
    | succ j => simpa [bumpAt] using ih j

theorem bumpAt_sum (l : List Nat) (i : Nat) (h : i < l.length) :
    (bumpAt l i).sum = l.sum + 1 := by
  induction l generalizing i with
  | nil => simp at h
  | cons c rest ih =>
    cases i with
    | zero => simp [bumpAt]; omega
    | succ j =>
      have hj : j < rest.length := by simpa using h
      simp [bumpAt, ih j hj]; omega

theorem findBin_lt_aux (ubs : List Nat) (hs : ubs.getLast? = some (2 ^ 64 - 1))
    (d : Nat) (hd : d < 2 ^ 64) : findBin d ubs < ubs.length := by
  induction ubs with
  | nil => simp at hs
  | cons u rest ih =>
    by_cases hdu : d ≤ u
    · simp [findBin, hdu]
    · cases rest with
      | nil =>
        have hu : u = 2 ^ 64 - 1 := by simpa using hs
        omega
      | cons v rest2 =>
        have hs2 : (v :: rest2).getLast? = some (2 ^ 64 - 1) := by
          simpa [List.getLast?_cons_cons] using hs
        have h1 := ih hs2
        have h2 : findBin d (u :: v :: rest2) = findBin d (v :: rest2) + 1 := by
          simp [findBin, hdu]
        rw [h2, List.length_cons]
        omega

theorem foldlSet_length (ws : List (Nat × Nat)) (l : List Nat) :
    (ws.foldl (fun acc w => acc.set w.1 w.2) l).length = l.length := by
  induction ws generalizing l with
  | nil => rfl
  | cons w rest ih =>
    simp only [List.foldl_cons]
    rw [ih]
    simp

theorem histoTable_length (bins minv knee : Nat) :
    (histoTable bins minv knee).length = bins := by
  rw [histoTable, foldlSet_length]
  simp

theorem histoTable_getLast? (bins minv knee : Nat) (hb : 0 < bins) :
    (histoTable bins minv knee).getLast? = some (2 ^ 64 - 1) := by
  have key : ∀ (prev : List Nat), prev.length = bins →
      (prev.set (bins - 1) (2 ^ 64 - 1)).getLast? = some (2 ^ 64 - 1) := by
    intro prev hlen
    rw [List.getLast?_eq_getElem?]
    have h1 : (prev.set (bins - 1) (2 ^ 64 - 1)).length = bins := by
      simp [hlen]
    rw [h1]
    exact List.getElem?_set_eq_of_lt _ (by omega)
  have hshape : histoTable bins minv knee =
      ((lowerWrites bins minv knee ++
          upperWritesAux knee (bins / 2) (bins - bins / 2)).foldl
        (fun acc w => acc.set w.1 w.2) (List.replicate bins 0)).set
          (bins - 1) (2 ^ 64 - 1) := by
    rw [histoTable, histoWrites, List.foldl_append]
    rfl
  rw [hshape]
  exact key _ (by rw [foldlSet_length]; simp)

/-- C4: the unguarded sentinel scan is safe. For every delta d (a uint64
value, so d < 2^64) and every bin table whose last upper bound is the
maximum representable tick value UINT64_MAX, the scan for the first bin
with upper bound at least d stops at an index within 0..length-1, so the
loop at line 564 never reads past the end of the table. -/
theorem findBin_stays_in_table (ubs : List Nat)
    (hs : ubs.getLast? = some (2 ^ 64 - 1)) (d : Nat) (hd : d < 2 ^ 64) :
    findBin d ubs < ubs.length :=
  findBin_lt_aux ubs hs d hd

/-- Witness for C4 at a concrete two-bin table and a concrete delta. -/
theorem findBin_stays_in_table_witness :
    findBin 7 [10, 2 ^ 64 - 1] < ([10, 2 ^ 64 - 1] : List Nat).length :=
  findBin_stays_in_table [10, 2 ^ 64 - 1] (by decide) 7 (by decide)

theorem accFold_spec (ubs : List Nat) (hs : ubs.getLast? = some (2 ^ 64 - 1)) :
    ∀ (deltas : List Nat) (st : AccState), (∀ d ∈ deltas, d < 2 ^ 64) →
      st.counts.length = ubs.length →
      (deltas.foldl (accStep ubs) st).counts.sum = st.counts.sum + deltas.length := by
  intro deltas
  induction deltas with
  | nil =>
    intro st _ _
    simp
  | cons d rest ih =>
    intro st hd hlen
    have hd0 : d < 2 ^ 64 := hd d (by simp)
    have hrest : ∀ x ∈ rest, x < 2 ^ 64 := fun x hx => hd x (by simp [hx])
    have hbin : findBin d ubs < st.counts.length := by
      rw [hlen]
      exact findBin_lt_aux ubs hs d hd0
    have hlen2 : (accStep ubs st d).counts.length = ubs.length := by
      simp [accStep, bumpAt_length, hlen]
    have hih := ih (accStep ubs st d) hrest hlen2
    simp only [List.foldl_cons]
    rw [hih]
    have hb := bumpAt_sum st.counts (findBin d ubs) hbin
    simp only [accStep, List.length_cons]
    omega

theorem accFold_dcount (ubs : List Nat) :
    ∀ (deltas : List Nat) (st : AccState), st.delta_count < 2 ^ 64 →
      (deltas.foldl (accStep ubs) st).delta_count =
        (st.delta_count + deltas.length) % 2 ^ 64 := by
  intro deltas
  induction deltas with
  | nil =>
    intro st h
    simp only [List.foldl_nil, List.length_nil, Nat.add_zero]
    omega
  | cons d rest ih =>
    intro st h
    simp only [List.foldl_cons]
    have hstep : (accStep ubs st d).delta_count = (st.delta_count + 1) % 2 ^ 64 := rfl
    have hst2 : (accStep ubs st d).delta_count < 2 ^ 64 := by
      rw [hstep]
      exact Nat.mod_lt _ (by norm_num)
    rw [ih _ hst2, hstep, Nat.mod_add_mod]
    congr 1
    simp only [List.length_cons]
    omega

/-- C2 counterexample: the recorded sample count does not equal N for
every N. Over the valid 4-bin table (min 10, knee 50), after feeding the
concrete sequence of 2^64 deltas of value 20 the uint64 delta_count,
incremented once per delta at line 567, has wrapped back to 0 instead of
equalling the number of deltas fed. -/
theorem acc_delta_count_wraps :
    (accRun (histoTable 4 10 50) (List.replicate (2 ^ 64) 20)).delta_count = 0 ∧
      (List.replicate (2 ^ 64) 20).length = 2 ^ 64 := by
  have hinit : (accInit (histoTable 4 10 50).length).delta_count = 0 := rfl
  have hlt : (accInit (histoTable 4 10 50).length).delta_count < 2 ^ 64 := by
    rw [hinit]
    norm_num
  constructor
  · rw [accRun, accFold_dcount (histoTable 4 10 50) (List.replicate (2 ^ 64) 20)
      (accInit (histoTable 4 10 50).length) hlt, List.length_replicate, hinit,
      Nat.zero_add, Nat.mod_self]
  · exact List.length_replicate (2 ^ 64) 20

/-- C2 (amended): every delta lands in exactly one bin, for every run
short enough that the source's counters behave as plain integers. Over
the bin table built by histo_setup from a valid configuration (bins even
and at least 2, knee above min, knee - min at least bins/2), feeding any
sequence of fewer than 2^31 uint64 deltas through the analysis loop makes
the bin counts sum to the number of deltas fed and makes delta_count equal
that same number: deltas below the configured min land in bin 0 and deltas
above the knee are caught at the latest by the UINT64_MAX sentinel bin.
The length bound keeps every C int bin count within the range where its
increment is defined and keeps the uint64 delta_count from wrapping; for
arbitrary lengths delta_count is the length mod 2^64. -/
theorem acc_total_counts (bins minv knee : Nat) (deltas : List Nat)
    (hbins : 2 ≤ bins) (heven : bins % 2 = 0) (hmk : minv < knee)
    (hlin : bins / 2 ≤ knee - minv) (hd : ∀ d ∈ deltas, d < 2 ^ 64)
    (hN : deltas.length < 2 ^ 31) :
    (accRun (histoTable bins minv knee) deltas).counts.sum = deltas.length ∧
      (accRun (histoTable bins minv knee) deltas).delta_count =
        deltas.length := by
  have hs := histoTable_getLast? bins minv knee (by omega)
  have h0 : (accInit (histoTable bins minv knee).length).counts.length =
      (histoTable bins minv knee).length := by simp [accInit]
  constructor
  · rw [accRun, accFold_spec (histoTable bins minv knee) hs deltas
      (accInit (histoTable bins minv knee).length) hd h0]
    simp [accInit]
  · rw [accRun, accFold_dcount (histoTable bins minv knee) deltas
      (accInit (histoTable bins minv knee).length) (by norm_num [accInit])]
    have hz : (accInit (histoTable bins minv knee).length).delta_count = 0 := rfl
    rw [hz, Nat.zero_add]
    exact Nat.mod_eq_of_lt (lt_trans hN (by norm_num))

/-- Witness for the amended C2: a 4-bin table from min 10, knee 50, fed
one delta below min, one between knee and the sentinel, and one large. -/
theorem acc_total_counts_witness :
    (accRun (histoTable 4 10 50) [5, 60, 1000]).counts.sum = 3 ∧
      (accRun (histoTable 4 10 50) [5, 60, 1000]).delta_count = 3 := by
  have h := acc_total_counts 4 10 50 [5, 60, 1000] (by decide) (by decide)
      (by decide) (by decide) (by decide) (by decide)
  simpa using h

/-- The outlier ring buffer: the slot array allocated by outliers_setup
(line 382, calloc zero-fills it), the write position obp - outbuf, and the
didwrap flag. The capacity args.outbuf is the slot count. -/
structure OutBuf where
  slots : List (Nat × Nat)
  wpos : Nat
  wrapped : Bool

/-- The buffer as sampling starts (lines 382, 499-500): cap zeroed slots,
write position at the start, didwrap false. -/
def outbufFresh (cap : Nat) : OutBuf :=
  ⟨List.replicate cap (0, 0), 0, false⟩

/-- One outlier insertion (lines 575-584): store the (when, delta) record
at the current write position, advance the position, and once it reaches
the capacity wrap it back to 0 and set didwrap. -/
def outbufInsert (o : Nat × Nat) (b : OutBuf) : OutBuf :=
  let s := b.slots.set b.wpos o
  if s.length ≤ b.wpos + 1 then ⟨s, 0, true⟩ else ⟨s, b.wpos + 1, b.wrapped⟩

/-- Insert a sequence of outlier records in order. -/
def outbufInsertAll (xs : List (Nat × Nat)) (b : OutBuf) : OutBuf :=
  xs.foldl (fun b o => outbufInsert o b) b

theorem outbufInsertAll_cons (x : Nat × Nat) (xs : List (Nat × Nat)) (b : OutBuf) :
    outbufInsertAll (x :: xs) b = outbufInsertAll xs (outbufInsert x b) := rfl

theorem outbufInsertAll_append (xs ys : List (Nat × Nat)) (b : OutBuf) :
    outbufInsertAll (xs ++ ys) b = outbufInsertAll ys (outbufInsertAll xs b) := by
  rw [outbufInsertAll, outbufInsertAll, outbufInsertAll, List.foldl_append]

theorem outbufInsert_length (o : Nat × Nat) (b : OutBuf) :
    (outbufInsert o b).slots.length = b.slots.length := by
  rw [outbufInsert]
  simp only [List.length_set]
  split <;> simp

theorem outbufInsert_eq (o : Nat × Nat) (b : OutBuf) (hp : b.wpos < b.slots.length) :
    outbufInsert o b =
      ⟨b.slots.set b.wpos o, (b.wpos + 1) % b.slots.length,
        b.wrapped || decide (b.slots.length ≤ b.wpos + 1)⟩ := by
  rw [outbufInsert]
  simp only [List.length_set]
  by_cases h : b.slots.length ≤ b.wpos + 1
  · have he : b.wpos + 1 = b.slots.length := by omega
    rw [if_pos h, he, Nat.mod_self]
    simp [h]
  · rw [if_neg h, Nat.mod_eq_of_lt (by omega)]
    simp [h]

theorem outbufInsertAll_length (xs : List (Nat × Nat)) :
    ∀ b : OutBuf, (outbufInsertAll xs b).slots.length = b.slots.length := by
  induction xs with
  | nil => intro b; rfl
  | cons x rest ih =>
    intro b
    rw [outbufInsertAll_cons, ih, outbufInsert_length]

theorem outbufInsertAll_wpos (xs : List (Nat × Nat)) :
    ∀ b : OutBuf, b.wpos < b.slots.length →
      (outbufInsertAll xs b).wpos = (b.wpos + xs.length) % b.slots.length := by
  induction xs with
  | nil =>
    intro b hp
    show b.wpos = (b.wpos + 0) % b.slots.length
    rw [Nat.add_zero, Nat.mod_eq_of_lt hp]
  | cons x rest ih =>
    intro b hp
    rw [outbufInsertAll_cons]
    have h1 : (outbufInsert x b).wpos = (b.wpos + 1) % b.slots.length := by
      rw [outbufInsert_eq x b hp]
    have h2 : (outbufInsert x b).slots.length = b.slots.length :=
      outbufInsert_length x b
    have hp2 : (outbufInsert x b).wpos < (outbufInsert x b).slots.length := by
      rw [h1, h2]
      exact Nat.mod_lt _ (by omega)
    rw [ih _ hp2, h1, h2, Nat.mod_add_mod, List.length_cons]
    congr 1
    omega

theorem outbufInsertAll_wrapped (xs : List (Nat × Nat)) :
    ∀ b : OutBuf, b.wpos < b.slots.length →
      (outbufInsertAll xs b).wrapped =
        (b.wrapped || decide (b.slots.length ≤ b.wpos + xs.length)) := by
  induction xs with
  | nil =>
    intro b hp
    have hno : ¬ (b.slots.length ≤ b.wpos + ([] : List (Nat × Nat)).length) := by
      simp only [List.length_nil, Nat.add_zero]
      omega
    show b.wrapped = _
    simp only [decide_eq_false hno, Bool.or_false]
  | cons x rest ih =>
    intro b hp
    rw [outbufInsertAll_cons]
    have h1 : (outbufInsert x b).wpos = (b.wpos + 1) % b.slots.length := by
      rw [outbufInsert_eq x b hp]
    have h2 : (outbufInsert x b).slots.length = b.slots.length :=
      outbufInsert_length x b
    have h3 : (outbufInsert x b).wrapped =
        (b.wrapped || decide (b.slots.length ≤ b.wpos + 1)) := by
      rw [outbufInsert_eq x b hp]
    have hp2 : (outbufInsert x b).wpos < (outbufInsert x b).slots.length := by
      rw [h1, h2]
      exact Nat.mod_lt _ (by omega)
    rw [ih _ hp2, h1, h2, h3, List.length_cons]
    by_cases hw : b.slots.length ≤ b.wpos + 1
    · have hr : b.slots.length ≤ b.wpos + (rest.length + 1) := by omega
      simp [hw, hr]
    · have he : (b.wpos + 1) % b.slots.length = b.wpos + 1 :=
        Nat.mod_eq_of_lt (by omega)
      rw [he]
      have hiff : (b.slots.length ≤ b.wpos + 1 + rest.length) ↔
          (b.slots.length ≤ b.wpos + (rest.length + 1)) := by omega
      simp [hw, hiff]

theorem outbufInsertAll_nowrap (xs : List (Nat × Nat)) :
    ∀ b : OutBuf, b.wpos + xs.length ≤ b.slots.length →
      (outbufInsertAll xs b).slots =
        b.slots.take b.wpos ++ xs ++ b.slots.drop (b.wpos + xs.length) := by
  induction xs with
  | nil =>
    intro b hp
    show b.slots = _
    simp
  | cons x rest ih =>
    intro b hp
    simp only [List.length_cons] at hp ⊢
    have hplt : b.wpos < b.slots.length := by omega
    rw [outbufInsertAll_cons]
    by_cases hw : b.slots.length ≤ b.wpos + 1
    · have hrnil : rest = [] := List.length_eq_zero.mp (by omega)
      subst hrnil
      have h2 : (outbufInsert x b).slots = b.slots.set b.wpos x := by
        rw [outbufInsert_eq x b hplt]
      show (outbufInsert x b).slots = _
      rw [h2, List.set_eq_take_cons_drop x hplt]
      simp
    · have h1 : (outbufInsert x b).wpos = b.wpos + 1 := by
        rw [outbufInsert_eq x b hplt]
        exact Nat.mod_eq_of_lt (by omega)
      have h2 : (outbufInsert x b).slots = b.slots.set b.wpos x := by
        rw [outbufInsert_eq x b hplt]
      have hp2 : (outbufInsert x b).wpos + rest.length ≤
          (outbufInsert x b).slots.length := by
        rw [h1, outbufInsert_length]
        omega
      rw [ih _ hp2, h1, h2, List.set_eq_take_cons_drop x hplt]
      have hlt : (b.slots.take b.wpos).length = b.wpos := by
        rw [List.length_take]
        omega
      have e1 : List.take (b.wpos + 1) (b.slots.take b.wpos) = b.slots.take b.wpos :=
        List.take_of_length_le (by rw [hlt]; omega)
      have e3 : List.drop (b.wpos + 1 + rest.length) (b.slots.take b.wpos) = [] :=
        List.drop_eq_nil_of_le (by rw [hlt]; omega)
      rw [List.take_append_eq_append_take, List.drop_append_eq_append_drop, hlt, e1, e3]
      have e2 : (x :: b.slots.drop (b.wpos + 1)).take (b.wpos + 1 - b.wpos) = [x] := by
        have hone : b.wpos + 1 - b.wpos = 1 := by omega
        rw [hone]
        rfl
      have e4 : (x :: b.slots.drop (b.wpos + 1)).drop (b.wpos + 1 + rest.length - b.wpos) =
          b.slots.drop (b.wpos + (rest.length + 1)) := by
        have hidx : b.wpos + 1 + rest.length - b.wpos = rest.length + 1 := by omega
        rw [hidx]
        show (b.slots.drop (b.wpos + 1)).drop rest.length = _
        rw [List.drop_drop]
        congr 1
        omega
      rw [e2, e4]
      simp [List.append_assoc]

theorem outbufInsertAll_cycle (xs : List (Nat × Nat)) (b : OutBuf)
    (hp : b.wpos < b.slots.length) (hx : xs.length = b.slots.length) :
    (outbufInsertAll xs b).slots =
      xs.drop (b.slots.length - b.wpos) ++ xs.take (b.slots.length - b.wpos) := by
  have hsplit : xs.take (b.slots.length - b.wpos) ++ xs.drop (b.slots.length - b.wpos) = xs :=
    List.take_append_drop _ xs
  conv_lhs => rw [← hsplit]
  rw [outbufInsertAll_append]
  have hlen1 : (xs.take (b.slots.length - b.wpos)).length = b.slots.length - b.wpos := by
    rw [List.length_take]
    omega
  have hfill1 := outbufInsertAll_nowrap (xs.take (b.slots.length - b.wpos)) b
    (by rw [hlen1]; omega)
  have hw1 : (outbufInsertAll (xs.take (b.slots.length - b.wpos)) b).wpos = 0 := by
    rw [outbufInsertAll_wpos _ b hp, hlen1]
    have hall : b.wpos + (b.slots.length - b.wpos) = b.slots.length := by omega
    rw [hall, Nat.mod_self]
  have hl1 : (outbufInsertAll (xs.take (b.slots.length - b.wpos)) b).slots.length =
      b.slots.length := outbufInsertAll_length _ b
  have hs1 : (outbufInsertAll (xs.take (b.slots.length - b.wpos)) b).slots =
      b.slots.take b.wpos ++ xs.take (b.slots.length - b.wpos) := by
    rw [hfill1, hlen1]
    have hall : b.wpos + (b.slots.length - b.wpos) = b.slots.length := by omega
    rw [hall, List.drop_eq_nil_of_le (by omega)]
    simp
  have hlen2 : (xs.drop (b.slots.length - b.wpos)).length = b.wpos := by
    rw [List.length_drop]
    omega
  have hfill2 := outbufInsertAll_nowrap (xs.drop (b.slots.length - b.wpos))
    (outbufInsertAll (xs.take (b.slots.length - b.wpos)) b)
    (by rw [hw1, hl1, hlen2]; omega)
  rw [hfill2, hw1, hlen2, hs1]
  have htk : (b.slots.take b.wpos).length = b.wpos := by
    rw [List.length_take]
    omega
  rw [List.drop_append_eq_append_drop, htk]
  have e5 : List.drop (0 + b.wpos) (b.slots.take b.wpos) = [] :=
    List.drop_eq_nil_of_le (by rw [htk]; omega)
  have e6 : (xs.take (b.slots.length - b.wpos)).drop (0 + b.wpos - b.wpos) =
      xs.take (b.slots.length - b.wpos) := by
    have hz : 0 + b.wpos - b.wpos = 0 := by omega
    rw [hz]
    rfl
  rw [e5, e6]
  simp

theorem outbufInsertAll_overfill (xs : List (Nat × Nat)) :
    ∀ b : OutBuf, b.wpos < b.slots.length → b.slots.length ≤ xs.length →
      (outbufInsertAll xs b).slots.drop ((outbufInsertAll xs b).wpos) ++
        (outbufInsertAll xs b).slots.take ((outbufInsertAll xs b).wpos) =
          xs.drop (xs.length - b.slots.length) := by
  induction xs with
  | nil =>
    intro b hp hn
    simp only [List.length_nil] at hn
    omega
  | cons x rest ih =>
    intro b hp hn
    by_cases hr : b.slots.length ≤ rest.length
    · rw [outbufInsertAll_cons]
      have h1 : (outbufInsert x b).wpos = (b.wpos + 1) % b.slots.length := by
        rw [outbufInsert_eq x b hp]
      have h2 : (outbufInsert x b).slots.length = b.slots.length :=
        outbufInsert_length x b
      have hp2 : (outbufInsert x b).wpos < (outbufInsert x b).slots.length := by
        rw [h1, h2]
        exact Nat.mod_lt _ (by omega)
      have hrec := ih (outbufInsert x b) hp2 (by rw [h2]; exact hr)
      rw [hrec, h2]
      have hidx : (x :: rest).length - b.slots.length =
          (rest.length - b.slots.length) + 1 := by
        simp only [List.length_cons]
        omega
      rw [hidx]
      rfl
    · have hexact : (x :: rest).length = b.slots.length := by
        simp only [List.length_cons] at hn ⊢
        omega
      have hc := outbufInsertAll_cycle (x :: rest) b hp hexact
      have hw := outbufInsertAll_wpos (x :: rest) b hp
      rw [hexact] at hw
      have hw2 : (outbufInsertAll (x :: rest) b).wpos = b.wpos := by
        rw [hw, Nat.add_mod_right, Nat.mod_eq_of_lt hp]
      rw [hw2, hc]
      have hA : ((x :: rest).drop (b.slots.length - b.wpos)).length = b.wpos := by
        rw [List.length_drop, hexact]
        omega
      have d1 : (((x :: rest).drop (b.slots.length - b.wpos)) ++
          ((x :: rest).take (b.slots.length - b.wpos))).drop b.wpos =
          (x :: rest).take (b.slots.length - b.wpos) := by
        rw [List.drop_append_eq_append_drop, hA,
          List.drop_eq_nil_of_le (le_of_eq hA), Nat.sub_self]
        simp
      have t1 : (((x :: rest).drop (b.slots.length - b.wpos)) ++
          ((x :: rest).take (b.slots.length - b.wpos))).take b.wpos =
          (x :: rest).drop (b.slots.length - b.wpos) := by
        rw [List.take_append_eq_append_take, hA,
          List.take_of_length_le (le_of_eq hA), Nat.sub_self]
        simp
      rw [d1, t1]
      have hz : (x :: rest).length - b.slots.length = 0 := by omega
      rw [hz, List.drop_zero, List.take_append_drop]

/-- C6: ring buffer retention. Inserting cap + k outliers (cap > 0, k > 0)
into the fresh buffer leaves exactly cap live slot entries, sets the
didwrap flag, and reading the slots from the final write position around
the ring yields exactly the most recently inserted cap records in
insertion order: writes proceed at the next write position and wrap to
index 0 when the end is reached. -/
theorem outbuf_retains_most_recent (cap k : Nat) (xs : List (Nat × Nat))
    (hc : 0 < cap) (hk : 0 < k) (hx : xs.length = cap + k) :
    (outbufInsertAll xs (outbufFresh cap)).wrapped = true ∧
      (outbufInsertAll xs (outbufFresh cap)).slots.length = cap ∧
      (outbufInsertAll xs (outbufFresh cap)).slots.drop
          ((outbufInsertAll xs (outbufFresh cap)).wpos) ++
        (outbufInsertAll xs (outbufFresh cap)).slots.take
          ((outbufInsertAll xs (outbufFresh cap)).wpos) = xs.drop k := by
  have hfl : (outbufFresh cap).slots.length = cap := by
    simp [outbufFresh]
  have hfp : (outbufFresh cap).wpos < (outbufFresh cap).slots.length := by
    simpa [outbufFresh] using hc
  refine ⟨?_, ?_, ?_⟩
  · rw [outbufInsertAll_wrapped xs _ hfp]
    simp [outbufFresh]
    omega
  · rw [outbufInsertAll_length, hfl]
  · have ho := outbufInsertAll_overfill xs (outbufFresh cap) hfp
      (by rw [hfl, hx]; omega)
    rw [ho, hfl, hx]
    congr 1
    omega

/-- Witness for C6 with capacity 2 and three insertions: the flag is set
and the buffer read from the write position is the last two records. -/
theorem outbuf_retains_most_recent_witness :
    (outbufInsertAll [(1, 10), (2, 20), (3, 30)] (outbufFresh 2)).wrapped = true ∧
      (outbufInsertAll [(1, 10), (2, 20), (3, 30)] (outbufFresh 2)).slots.length = 2 ∧
      (outbufInsertAll [(1, 10), (2, 20), (3, 30)] (outbufFresh 2)).slots.drop
          ((outbufInsertAll [(1, 10), (2, 20), (3, 30)] (outbufFresh 2)).wpos) ++
        (outbufInsertAll [(1, 10), (2, 20), (3, 30)] (outbufFresh 2)).slots.take
          ((outbufInsertAll [(1, 10), (2, 20), (3, 30)] (outbufFresh 2)).wpos) =
        [(1, 10), (2, 20), (3, 30)].drop 1 :=
  outbuf_retains_most_recent 2 1 [(1, 10), (2, 20), (3, 30)]
    (by decide) (by decide) (by decide)

/-- C7 counterexample: didwrap is set at exactly capacity insertions,
before any overwrite. Inserting exactly five outliers into a fresh
capacity-5 buffer leaves every inserted record present in its own slot -
no previously written slot was overwritten, and not strictly more than
capacity outliers were inserted - yet the wrapped flag is already true. -/
theorem outbuf_wrapped_at_exact_capacity :
    (outbufInsertAll [(1, 60), (2, 61), (3, 62), (4, 63), (5, 64)]
        (outbufFresh 5)).wrapped = true ∧
      (outbufInsertAll [(1, 60), (2, 61), (3, 62), (4, 63), (5, 64)]
          (outbufFresh 5)).slots =
        [(1, 60), (2, 61), (3, 62), (4, 63), (5, 64)] := by
  decide

/-- C7 (amended): the wrapped flag after inserting a sequence of outliers
into a fresh buffer of positive capacity is true exactly when at least
capacity many outliers have been inserted; the flag is set when the write
position wraps back to index 0, which first happens at exactly capacity
insertions, before any slot has been overwritten. In particular a single
insertion into a capacity-5 buffer leaves it false. -/
theorem outbuf_wrapped_iff_capacity_le (cap : Nat) (hc : 0 < cap)
    (xs : List (Nat × Nat)) :
    (outbufInsertAll xs (outbufFresh cap)).wrapped = decide (cap ≤ xs.length) := by
  have hfp : (outbufFresh cap).wpos < (outbufFresh cap).slots.length := by
    simpa [outbufFresh] using hc
  rw [outbufInsertAll_wrapped xs _ hfp]
  simp [outbufFresh]

/-- Witness for the amended C7: one outlier into capacity 5 leaves the
flag false, matching the end-to-end scenario of the spec. -/
theorem outbuf_wrapped_iff_capacity_le_witness :
    (outbufInsertAll [(7, 1000000)] (outbufFresh 5)).wrapped = false := by
  have h := outbuf_wrapped_iff_capacity_le 5 (by decide) [(7, 1000000)]
  simpa using h

/-- The outlier export loop of main (lines 690-696): walk every buffer
slot in order and emit it to the outliers file unless its when field is
zero, which continues past the slot without emitting it. -/
def exportOutliers : List (Nat × Nat) → List (Nat × Nat)
  | [] => []
  | o :: rest => if o.1 = 0 then exportOutliers rest else o :: exportOutliers rest

/-- C10: a slot is exported iff its when timestamp is nonzero. The export
loop equals a filter keeping slots with nonzero when, so the zero-filled
never-written slots of the calloc'd fresh buffer are all skipped, and a
genuinely captured outlier whose recorded timestamp is 0 is also silently
skipped, as the concrete capacity-3 buffer holding the one captured
record (0, 500) shows: nothing is exported from it. -/
theorem export_skips_zero_when :
    (∀ slots : List (Nat × Nat),
        exportOutliers slots = slots.filter fun o => o.1 != 0) ∧
      exportOutliers (outbufFresh 3).slots = [] ∧
      exportOutliers ((outbufInsert (0, 500) (outbufFresh 3)).slots) = [] := by
  refine ⟨?_, by decide, by decide⟩
  intro slots
  induction slots with
  | nil => rfl
  | cons o rest ih =>
    by_cases h : o.1 = 0
    · simp [exportOutliers, h, ih, List.filter_cons]
    · simp [exportOutliers, h, ih, List.filter_cons]

/-- The report loop bookkeeping for mid_count (lines 608-617): walking the
bins in order with running cumulative count cc, mid_count is set to cc on
reaching index midIdx (the histogram midpoint bins/2), that is before the
midpoint bin's own count has been added to cc. -/
def midCountGo (midIdx : Nat) : List Nat → Nat → Nat → Nat → Nat
  | [], _, _, mc => mc
  | c :: rest, i, cc, mc =>
    midCountGo midIdx rest (i + 1) (cc + c) (if i = midIdx then cc else mc)

/-- The value mid_count holds after the report loop, starting at bin index
0 with cumulative count 0 and mid_count 0 (line 609). -/
def mid_count (counts : List Nat) (midIdx : Nat) : Nat :=
  midCountGo midIdx counts 0 0 0

theorem midCountGo_past (midIdx : Nat) :
    ∀ (counts : List Nat) (i cc mc : Nat), midIdx < i →
      midCountGo midIdx counts i cc mc = mc := by
  intro counts
  induction counts with
  | nil =>
    intro i cc mc h
    rfl
  | cons c rest ih =>
    intro i cc mc h
    have hne : ¬ (i = midIdx) := by omega
    simp only [midCountGo, hne, if_false]
    exact ih (i + 1) (cc + c) mc (by omega)

theorem midCountGo_spec (midIdx : Nat) :
    ∀ (counts : List Nat) (i cc mc : Nat), i ≤ midIdx →
      midIdx < i + counts.length →
      midCountGo midIdx counts i cc mc = cc + (counts.take (midIdx - i)).sum := by
  intro counts
  induction counts with
  | nil =>
    intro i cc mc h1 h2
    simp only [List.length_nil] at h2
    omega
  | cons c rest ih =>
    intro i cc mc h1 h2
    by_cases he : i = midIdx
    · have hstep : midCountGo midIdx (c :: rest) i cc mc =
          midCountGo midIdx rest (i + 1) (cc + c) cc := by
        show midCountGo midIdx rest (i + 1) (cc + c)
            (if i = midIdx then cc else mc) = _
        rw [if_pos he]
      rw [hstep, midCountGo_past midIdx rest (i + 1) (cc + c) cc (by omega)]
      have hz : midIdx - i = 0 := by omega
      rw [hz]
      simp
    · simp only [midCountGo, he, if_false]
      rw [ih (i + 1) (cc + c) mc (by omega)
        (by simp only [List.length_cons] at h2; omega)]
      have hidx : midIdx - i = (midIdx - (i + 1)) + 1 := by omega
      rw [hidx, List.take_succ_cons]
      simp
      omega

theorem mid_count_take (counts : List Nat) (midIdx : Nat)
    (h : midIdx < counts.length) :
    mid_count counts midIdx = (counts.take midIdx).sum := by
  rw [mid_count, midCountGo_spec midIdx counts 0 0 0 (by omega) (by omega)]
  simp

/-- The raise-knee recommendation of the report (lines 671-674): emitted
when outlier capture is disabled (outbuf stayed NULL) and the cumulative
percent 100*mid_count/delta_count is below 90, the double arithmetic
modelled over the rationals. -/
def recommend_raise (outbufEnabled : Bool) (counts : List Nat)
    (bins total : Nat) : Bool :=
  !outbufEnabled &&
    decide ((100 * (mid_count counts (bins / 2) : ℚ)) / (total : ℚ) < 90)

/-- The lower-knee recommendation of the report (lines 675-678): outlier
capture disabled and the cumulative percent above 99. -/
def recommend_lower (outbufEnabled : Bool) (counts : List Nat)
    (bins total : Nat) : Bool :=
  !outbufEnabled &&
    decide ((99 : ℚ) < (100 * (mid_count counts (bins / 2) : ℚ)) / (total : ℚ))

/-- C9: with outlier capture disabled the reporter recommends raising the
knee exactly when 100 times the cumulative count recorded at the midpoint
bin bins/2 - which is the sum of the counts of the bins strictly below
index bins/2 - divided by the total sample count is under 90, and
recommends lowering the knee exactly when that percentage exceeds 99; with
outlier capture enabled neither of these two checks fires. -/
theorem knee_recommendation_thresholds (counts : List Nat) (bins total : Nat)
    (hmid : bins / 2 < counts.length) :
    (recommend_raise false counts bins total = true ↔
        (100 * (((counts.take (bins / 2)).sum : Nat) : ℚ)) / (total : ℚ) < 90) ∧
      (recommend_lower false counts bins total = true ↔
        (99 : ℚ) < (100 * (((counts.take (bins / 2)).sum : Nat) : ℚ)) / (total : ℚ)) ∧
      recommend_raise true counts bins total = false ∧
      recommend_lower true counts bins total = false := by
  refine ⟨?_, ?_, ?_, ?_⟩
  · rw [recommend_raise, mid_count_take counts (bins / 2) hmid]
    simp
  · rw [recommend_lower, mid_count_take counts (bins / 2) hmid]
    simp
  · rw [recommend_raise]
    simp
  · rw [recommend_lower]
    simp

/-- Witness for C9: two bins with counts 5 and 5, midpoint index 1, total
10 samples; the cumulative percent below the midpoint is 50, so the
raise-knee recommendation fires. -/
theorem knee_recommendation_thresholds_witness :
    recommend_raise false [5, 5] 2 10 = true := by
  have h := (knee_recommendation_thresholds [5, 5] 2 10 (by decide)).1
  apply h.mpr
  have hv : (([5, 5].take (2 / 2)).sum : Nat) = 5 := by decide
  rw [hv]
  norm_num

/-- The constant e, the C M_E macro used by the renderer. -/
noncomputable def M_E : ℝ := Real.exp 1

/-- The argument handed to log for each bin bar (line 629): the bin count
minus e, computed for every bin regardless of its count. -/
noncomputable def binLogArg (count : Nat) : ℝ := (count : ℝ) - M_E

/-- The argument handed to log in the graph scale factor (line 605): the
maximum bin count minus e, computed even when every bin is empty. -/
noncomputable def scaleLogArg (maxCount : Nat) : ℝ := (maxCount : ℝ) - M_E

/-- The clamp applied to the computed bar length (lines 630-637): a
negative length becomes 0, and a zero length with a nonzero count is
bumped to 1 so no nonzero bin is invisible. -/
def clamp_countlog (countlog : Int) (count : Nat) : Int :=
  let c1 := if countlog < 0 then 0 else countlog
  if c1 = 0 ∧ count ≠ 0 then 1 else c1

/-- C8: refuted as stated - the renderer does evaluate the logarithm of a
negative number on zero-count bins. The bar computation at line 629
always forms log(count - e); for a bin with count 0 the argument 0 - e is
negative, and for the all-empty histogram the scale factor argument
max_count - e at line 605 is the same negative number, so log is applied
to a negative argument (producing NaN) rather than being skipped. -/
theorem renderer_log_arg_negative_on_zero_count :
    binLogArg 0 < 0 ∧ scaleLogArg 0 < 0 := by
  have he : (0 : ℝ) < Real.exp 1 := Real.exp_pos 1
  constructor
  · rw [binLogArg, M_E]
    simp only [Nat.cast_zero, zero_sub, neg_lt_zero]
    exact he
  · rw [scaleLogArg, M_E]
    simp only [Nat.cast_zero, zero_sub, neg_lt_zero]
    exact he
